import Mathlib

/-
Verification of the drift-diffusion-model (DDM) parameter-inference pipeline
from `project1_week3_parameter_inference.ipynb`.

Shallow embedding conventions:
* real-valued numpy/torch arrays become `List ℚ` / `List (List ℚ)`;
* the simulator's internal Gaussian randomness (the Wiener increments drawn by
  `sdeint.itoEuler`) is exposed as an explicit input
  `noise : ℕ → ℕ → ℕ → ℚ` (parameter index, trial index, step index), so that
  every run of the embedded simulator is a deterministic function of its
  inputs;
* fallible numpy operations (the `assert` in `find_rts_and_decisions`, the
  shape errors raised for parameter rows that are not 1-dimensional, and
  `torch.cat` on an empty list) are modelled with `Option`.
-/

namespace DDM

/-- Embedding of `np.sign` on rationals: `-1`, `0` or `1`. -/
def npSign (x : ℚ) : ℚ :=
  if x < 0 then -1 else if x = 0 then 0 else 1

/-- Embedding of `np.linspace a b n`: `n` evenly spaced points from `a` to `b`
inclusive (`n = 1` gives `[a]`, `n = 0` gives `[]`, as numpy does). -/
def linspace (a b : ℚ) (n : ℕ) : List ℚ :=
  if n ≤ 1 then (List.range n).map (fun _ => a)
  else (List.range n).map (fun i : ℕ => a + (b - a) * (i : ℚ) / ((n : ℚ) - 1))

/-- Number of time steps used by the simulator: `int(T/dt)` (`T, dt > 0` in
every use, so Python truncation is the floor). -/
def numSteps (T dt : ℚ) : ℕ := (T / dt).floor.toNat

/-- Boundary-crossing test `abs(x) >= a` used in `find_rts_and_decisions`. -/
def crosses (a x : ℚ) : Bool := decide (a ≤ |x|)

/-- Embedding of the forcing step of `find_rts_and_decisions` on one trial
row: if no entry crosses the boundary, the last entry is overwritten with
`a * np.sign(last entry)` (`x_traces_param[undecided_idx, -1] = a *
np.sign(x_traces_param[undecided_idx, -1])`); decided rows are unchanged. -/
def forceTrial (a : ℚ) (xs : List ℚ) : List ℚ :=
  if xs.any (crosses a) then xs
  else xs.dropLast ++ (xs.getLast?.map (fun x => [a * npSign x])).getD []

/-- Embedding of the per-trial outcome of `find_rts_and_decisions`: after
forcing, the first index `i` with `abs(x) >= a` (the row-major
`nonzero`/`unique(..., return_index=True)` combination in the source yields
the first crossing column of each row) gives the outcome
`(tspan[i], np.sign(x[i]))`; a row with no crossing even after forcing
contributes no outcome (it is absent from `unique_rows`). -/
def extractTrial (a : ℚ) (tspan : List ℚ) (xs : List ℚ) : Option (ℚ × ℚ) :=
  match (forceTrial a xs).findIdx? (crosses a) with
  | some i => some (tspan.getD i 0, npSign ((forceTrial a xs).getD i 0))
  | none => none

/-- Rows `param_idx * num_trials` to `(param_idx + 1) * num_trials` of the
trace matrix: `x_traces[param_idx * num_trials : (param_idx + 1)*num_trials]`. -/
def paramBlock (x_traces : List (List ℚ)) (num_trials p : ℕ) : List (List ℚ) :=
  (x_traces.drop (p * num_trials)).take num_trials

/-- Body of `find_rts_and_decisions` after its `assert`: for each parameter
block, the decided trials' reaction times `tspan[decision_idx]` and decision
signs, in trial order. -/
def find_core (x_traces : List (List ℚ)) (num_parameters num_trials : ℕ)
    (tspan : List ℚ) (a : ℚ) : List (List ℚ) × List (List ℚ) :=
  (((List.range num_parameters).map (fun p =>
      (paramBlock x_traces num_trials p).filterMap (extractTrial a tspan))).map
        (fun o => o.map Prod.fst),
    ((List.range num_parameters).map (fun p =>
      (paramBlock x_traces num_trials p).filterMap (extractTrial a tspan))).map
        (fun o => o.map Prod.snd))

/-- Embedding of `find_rts_and_decisions(x_traces, num_parameters,
num_trials, tspan, a)`: the initial
`assert x_traces.shape[0] == num_parameters * num_trials` is modelled by
returning `none` (an `AssertionError`) when the row count mismatches. -/
def find_rts_and_decisions (x_traces : List (List ℚ)) (num_parameters num_trials : ℕ)
    (tspan : List ℚ) (a : ℚ) : Option (List (List ℚ) × List (List ℚ)) :=
  if x_traces.length = num_parameters * num_trials then
    some (find_core x_traces num_parameters num_trials tspan a)
  else none

/-- Embedding of `np.histogram(vs, bins=edges)` counts: half-open bins
`[e_j, e_(j+1))`, the final bin closed, as numpy does. -/
def histCounts (vs : List ℚ) : List ℚ → List ℕ
  | [] => []
  | [_] => []
  | [e1, e2] => [vs.countP (fun v => decide (e1 ≤ v ∧ v ≤ e2))]
  | e1 :: e2 :: e3 :: rest =>
      vs.countP (fun v => decide (e1 ≤ v ∧ v < e2)) :: histCounts vs (e2 :: e3 :: rest)

/-- Embedding of `calculate_histogram_stats(rts, decisions, T, nbins)`:
signed reaction times `rts * decisions` are binned, one histogram per row of
`sign_rts` (one row per parameter in every call made by `simulator`), with
fixed edges `np.linspace(-T, T, nbins)`. -/
def calculate_histogram_stats (rts decisions : List (List ℚ)) (T : ℚ)
    (nbins : ℕ) : List (List ℕ) :=
  (List.zipWith (fun r d => List.zipWith (fun x y => x * y) r d) rts decisions).map
    (fun row => histCounts row (linspace (-T) T nbins))

/-- The `parameters` argument of `simulator`: a bare Python float, a
1-dimensional tensor, or a 2-dimensional tensor. -/
inductive SimParams where
  | scalar (x : ℚ)
  | oneDim (xs : List ℚ)
  | twoDim (rows : List (List ℚ))

/-- Embedding of the input coercion at the top of `simulator`:
`torch.tensor([parameters])` for a float followed by
`parameters.reshape(1, -1)` for any 1-dimensional tensor, so both become a
single batch row. -/
def coerceParams : SimParams → List (List ℚ)
  | .scalar x => [[x]]
  | .oneDim xs => [xs]
  | .twoDim rows => rows

/-- Euler–Maruyama state after `k` steps, as computed by `sdeint.itoEuler`
for the diagonal system of the notebook: `x(k+1) = x(k) + mu*h + sigma*w(k)`,
`x(0) = y0`, where `h` is the `tspan` spacing and `w k` the `k`-th Wiener
increment. -/
def pathX (mu sigma h y0 : ℚ) (w : ℕ → ℚ) : ℕ → ℚ
  | 0 => y0
  | k + 1 => pathX mu sigma h y0 w k + mu * h + sigma * w k

/-- One trial's trace: the `itoEuler` output has one value per `tspan`
point. -/
def trialPath (mu sigma h y0 : ℚ) (w : ℕ → ℚ) (n : ℕ) : List ℚ :=
  (List.range n).map (pathX mu sigma h y0 w)

/-- Result of `simulator` with `return_traces=True`: the trace matrix and the
per-parameter summary statistics (with `return_traces=False` only `stats` is
returned; both are always computed). -/
structure SimResult where
  x_traces : List (List ℚ)
  stats : List (List ℕ)
deriving Repr, DecidableEq

/-- The step size `itoEuler` derives from the time grid:
`(tspan[N-1] - tspan[0])/(N-1)`, which for `tspan = linspace 0 T n` is
`T/(n-1)`. -/
def stepSize (T dt : ℚ) : ℚ := T / ((numSteps T dt : ℚ) - 1)

/-- The trace matrix returned by a successful
`sdeint.itoEuler(f, G, y0_expanded, tspan).T` call for one parameter value:
`num_trials` independent Euler–Maruyama trials. This is only the success
value: the library raises on a time grid with fewer than 2 points, which is
modelled at the call site (`simParamResult`), so `simBlock` is only reached
with `numSteps T dt ≥ 2`. -/
def simBlock (mu sigma T y0 dt : ℚ) (w : ℕ → ℕ → ℚ) (num_trials : ℕ) :
    List (List ℚ) :=
  (List.range num_trials).map (fun i =>
    trialPath mu sigma (stepSize T dt) y0 (w i) (numSteps T dt))

/-- One iteration of the parameter loop in `simulator`: integrate
`num_trials` trials, extract reaction times and decisions
(`find_rts_and_decisions(x_traces_param, 1, num_trials, tspan, a=a)`), and
bin them. The forcing step of `find_rts_and_decisions` mutates the trace
array in place, so the traces the loop appends carry the forced last values:
the returned block is `map (forceTrial a)`.
The `sdeint.itoEuler` call validates its time grid before integrating and
raises (a `ValueError`, from the empty `np.diff(tspan)` in its argument
check) when the grid has fewer than 2 points, so the loop body fails for
`int(T/dt) < 2` before any trace is formed: modelled as `none`. -/
def simParamResult (mu sigma T y0 a : ℚ) (num_trials nbins : ℕ) (dt : ℚ)
    (w : ℕ → ℕ → ℚ) : Option (List (List ℚ) × List (List ℕ)) :=
  if numSteps T dt < 2 then none
  else
    (find_rts_and_decisions (simBlock mu sigma T y0 dt w num_trials) 1 num_trials
        (linspace 0 T (numSteps T dt)) a).map
      (fun rd => ((simBlock mu sigma T y0 dt w num_trials).map (forceTrial a),
        calculate_histogram_stats rd.1 rd.2 T nbins))

/-- The parameter loop of `simulator`, carrying the running parameter index
(which selects each parameter's noise stream). Each parameter row must have
exactly one entry: for a longer row the numpy drift computation
`np.eye(num_simulations).dot(mu_expanded)` raises a shape error, modelled as
`none`. -/
def simLoop (noise : ℕ → ℕ → ℕ → ℚ) (num_trials : ℕ) (sigma T y0 a : ℚ)
    (nbins : ℕ) (dt : ℚ) :
    ℕ → List (List ℚ) → Option (List (List (List ℚ) × List (List ℕ)))
  | _, [] => some []
  | p, row :: rest =>
    if row.length = 1 then
      match simParamResult (row.getD 0 0) sigma T y0 a num_trials nbins dt (noise p) with
      | some r =>
          (simLoop noise num_trials sigma T y0 a nbins dt (p + 1) rest).map
            (fun rs => r :: rs)
      | none => none
    else none

/-- Embedding of `simulator(parameters, num_trials, sigma, T, y0, a,
return_traces, nbins, dt)`: coerce the parameters to a batch, run the
parameter loop, and concatenate traces and statistics in input order
(`torch.cat`, which raises on an empty list: `none` for an empty batch). -/
def simulator (parameters : SimParams) (noise : ℕ → ℕ → ℕ → ℚ)
    (num_trials : ℕ) (sigma T y0 a : ℚ) (nbins : ℕ) (dt : ℚ) :
    Option SimResult :=
  if (coerceParams parameters).isEmpty then none
  else
    (simLoop noise num_trials sigma T y0 a nbins dt 0 (coerceParams parameters)).map
      (fun rs => ⟨(rs.map Prod.fst).flatten, (rs.map Prod.snd).flatten⟩)

/-- Error taxonomy of the spec that is relevant to `rejection_abc`. -/
inductive ABCError where
  | invalidConfiguration
deriving Repr, DecidableEq

/-- Modelled from the spec: the notebook leaves the body of `rejection_abc`
as an exercise stub (its cell only contains comments and `return samples`),
so the scored candidate list is taken from the spec's algorithm: draw
`budget` parameters from the prior, simulate each, and compute
`distance(observed, simulated_i)` for each `i`. Prior draws are the explicit
input `priorDraws`. -/
def abc_scored (priorDraws : ℕ → ℚ) (simulate : ℚ → List ℚ) (observed : List ℚ)
    (num_simulations : ℕ) (distance_fun : List ℚ → List ℚ → ℚ) : List (ℚ × ℚ) :=
  (List.range num_simulations).map (fun i =>
    (distance_fun observed (simulate (priorDraws i)), priorDraws i))

/-- Modelled from the spec: "sort ascending by distance" with a
"deterministic tie-break: stable sort preserving original simulation order
among equal distances". -/
def abc_sorted (priorDraws : ℕ → ℚ) (simulate : ℚ → List ℚ) (observed : List ℚ)
    (num_simulations : ℕ) (distance_fun : List ℚ → List ℚ → ℚ) : List (ℚ × ℚ) :=
  (abc_scored priorDraws simulate observed num_simulations distance_fun).mergeSort
    (fun x y => decide (x.1 ≤ y.1))

/-- Modelled from the spec: the acceptance count, "retain floor(budget × q)
samples with smallest distance". -/
def num_accept (num_simulations : ℕ) (q : ℚ) : ℕ :=
  (q * (num_simulations : ℚ)).floor.toNat

/-- Modelled from the spec: `rejection_abc(prior, simulator, observed_data,
num_simulations, distance_fun, q)`, whose body the notebook leaves as an
exercise. Configuration checking per the spec: "budget < 1 or q not in
(0,1] → InvalidConfiguration", detected before any simulation; otherwise a
single simulate-and-score pass, sorted stably by distance, keeping the
`floor(budget × q)` closest parameters. -/
def rejection_abc (priorDraws : ℕ → ℚ) (simulate : ℚ → List ℚ) (observed : List ℚ)
    (num_simulations : ℕ) (distance_fun : List ℚ → List ℚ → ℚ) (q : ℚ) :
    Except ABCError (List ℚ) :=
  if num_simulations < 1 ∨ q ≤ 0 ∨ 1 < q then .error .invalidConfiguration
  else .ok
    (((abc_sorted priorDraws simulate observed num_simulations distance_fun).take
        (num_accept num_simulations q)).map Prod.snd)

/-! ### Basic facts about `npSign`, `crosses` and `linspace` -/

theorem npSign_cases (x : ℚ) : npSign x = -1 ∨ npSign x = 0 ∨ npSign x = 1 := by
  unfold npSign
  split
  · exact Or.inl rfl
  · split
    · exact Or.inr (Or.inl rfl)
    · exact Or.inr (Or.inr rfl)

theorem npSign_of_ne_zero {x : ℚ} (h : x ≠ 0) : npSign x = -1 ∨ npSign x = 1 := by
  unfold npSign
  rcases lt_trichotomy x 0 with hx | hx | hx
  · rw [if_pos hx]
    exact Or.inl rfl
  · exact absurd hx h
  · rw [if_neg (not_lt.mpr (le_of_lt hx)), if_neg h]
    exact Or.inr rfl

theorem crosses_mul_npSign (a : ℚ) {x : ℚ} (h : x ≠ 0) :
    crosses a (a * npSign x) = true := by
  rcases npSign_of_ne_zero h with h1 | h1 <;>
    simp [crosses, h1, abs_mul, abs_neg, le_abs_self]

theorem linspace_length (a b : ℚ) (n : ℕ) : (linspace a b n).length = n := by
  unfold linspace
  split <;> rw [List.length_map, List.length_range]

theorem linspace_getD (a b : ℚ) {n i : ℕ} (h : i < n) :
    (linspace a b n).getD i 0 =
      if n ≤ 1 then a else a + (b - a) * i / ((n : ℚ) - 1) := by
  unfold linspace
  split <;>
    rw [List.getD_eq_getElem?_getD, List.getElem?_map, List.getElem?_range h,
      Option.map_some', Option.getD_some]

theorem linspace_getD_zero (a b : ℚ) {n : ℕ} (h : 0 < n) :
    (linspace a b n).getD 0 0 = a := by
  rw [linspace_getD a b h]
  split <;> simp

theorem linspace_getD_bounds {a b : ℚ} (hab : a ≤ b) {n i : ℕ} (h : i < n) :
    a ≤ (linspace a b n).getD i 0 ∧ (linspace a b n).getD i 0 ≤ b := by
  rw [linspace_getD a b h]
  split
  · exact ⟨le_refl a, hab⟩
  · rename_i hn
    have hn2 : 2 ≤ n := by omega
    have hnq : (2 : ℚ) ≤ (n : ℚ) := by exact_mod_cast hn2
    have hpos : (0 : ℚ) < (n : ℚ) - 1 := by linarith
    have hi : (i : ℚ) ≤ (n : ℚ) - 1 := by
      have : ((i : ℚ) + 1) ≤ (n : ℚ) := by exact_mod_cast h
      linarith
    constructor
    · have h0 : 0 ≤ (b - a) * (i : ℚ) / ((n : ℚ) - 1) := by
        apply div_nonneg (mul_nonneg (by linarith) (by positivity)) (le_of_lt hpos)
      linarith
    · have h1 : (b - a) * (i : ℚ) / ((n : ℚ) - 1) ≤ b - a := by
        rw [div_le_iff₀ hpos]
        calc (b - a) * (i : ℚ) ≤ (b - a) * ((n : ℚ) - 1) :=
              mul_le_mul_of_nonneg_left hi (by linarith)
          _ = (b - a) * ((n : ℚ) - 1) := rfl
      linarith

theorem linspace_pairwise {a b : ℚ} (hab : a ≤ b) (n : ℕ) :
    (linspace a b n).Pairwise (fun x y => x ≤ y) := by
  unfold linspace
  split
  · exact (List.pairwise_lt_range n).map _ (fun _ _ _ => le_refl a)
  · rename_i hn
    have hnq : (2 : ℚ) ≤ (n : ℚ) := by exact_mod_cast (by omega : 2 ≤ n)
    have hpos : (0 : ℚ) < (n : ℚ) - 1 := by linarith
    apply (List.pairwise_lt_range n).map
    intro i j hij
    have hij' : (i : ℚ) ≤ (j : ℚ) := by exact_mod_cast le_of_lt hij
    have hd : (b - a) * (i : ℚ) / ((n : ℚ) - 1) ≤ (b - a) * (j : ℚ) / ((n : ℚ) - 1) := by
      gcongr
      linarith
    linarith

theorem linspace_head? (a b : ℚ) {n : ℕ} (h : 0 < n) :
    (linspace a b n).head? = some a := by
  rw [List.head?_eq_getElem?]
  unfold linspace
  split
  · rw [List.getElem?_map, List.getElem?_range h, Option.map_some']
  · rw [List.getElem?_map, List.getElem?_range h, Option.map_some']
    push_cast
    rw [mul_zero, zero_div, add_zero]

theorem linspace_getLast? (a b : ℚ) {n : ℕ} (h : 2 ≤ n) :
    (linspace a b n).getLast? = some b := by
  rw [List.getLast?_eq_getElem?, linspace_length]
  unfold linspace
  rw [if_neg (by omega)]
  have h1 : n - 1 < n := by omega
  simp only [List.getElem?_map, List.getElem?_range, h1, if_pos]
  have hc : ((n - 1 : ℕ) : ℚ) = (n : ℚ) - 1 := by
    have : (1 : ℕ) ≤ n := by omega
    push_cast [Nat.cast_sub this]
    ring
  have hne : (n : ℚ) - 1 ≠ 0 := by
    have : (2 : ℚ) ≤ (n : ℚ) := by exact_mod_cast h
    intro hcon
    linarith
  simp only [Option.map_some']
  congr 1
  rw [hc, mul_div_assoc, div_self hne]
  ring

/-! ### Facts about the forcing step and the per-trial extraction -/

theorem forceTrial_of_any {a : ℚ} {xs : List ℚ} (h : xs.any (crosses a) = true) :
    forceTrial a xs = xs := by
  unfold forceTrial
  rw [if_pos h]

theorem forceTrial_of_not_any {a : ℚ} {xs : List ℚ} (h : xs.any (crosses a) = false) :
    forceTrial a xs =
      xs.dropLast ++ (xs.getLast?.map (fun x => [a * npSign x])).getD [] := by
  unfold forceTrial
  rw [if_neg (by simp [h])]

theorem forceTrial_length (a : ℚ) (xs : List ℚ) :
    (forceTrial a xs).length = xs.length := by
  unfold forceTrial
  split
  · rfl
  · cases xs with
    | nil => rfl
    | cons x t =>
      obtain ⟨y, hy⟩ : ∃ y, (x :: t).getLast? = some y := by
        rw [List.getLast?_eq_getLast _ (by simp)]
        exact ⟨_, rfl⟩
      rw [hy]
      simp [List.length_dropLast]

theorem forceTrial_getLast {a : ℚ} {xs : List ℚ} (h1 : xs ≠ [])
    (h2 : xs.any (crosses a) = false) :
    (forceTrial a xs).getLast?.getD 0 = a * npSign (xs.getLast?.getD 0) := by
  rw [forceTrial_of_not_any h2]
  obtain ⟨y, hy⟩ : ∃ y, xs.getLast? = some y := by
    rw [List.getLast?_eq_getLast _ h1]
    exact ⟨_, rfl⟩
  rw [hy]
  simp [List.getLast?_concat]

theorem forceTrial_any {a : ℚ} {xs : List ℚ} (h1 : xs ≠ [])
    (h2 : xs.any (crosses a) = true ∨ xs.getLast?.getD 0 ≠ 0) :
    (forceTrial a xs).any (crosses a) = true := by
  rcases hc : xs.any (crosses a) with h | h
  · rcases h2 with h2 | h2
    · rw [hc] at h2
      exact absurd h2 (by simp)
    · rw [forceTrial_of_not_any hc]
      obtain ⟨y, hy⟩ : ∃ y, xs.getLast? = some y := by
        rw [List.getLast?_eq_getLast _ h1]
        exact ⟨_, rfl⟩
      rw [hy] at h2 ⊢
      simp only [Option.getD_some] at h2
      rw [List.any_append]
      have : crosses a (a * npSign y) = true := crosses_mul_npSign a h2
      simp [this]
  · rw [forceTrial_of_any hc]
    exact hc

theorem extractTrial_exists {a : ℚ} (_tspan : List ℚ) {xs : List ℚ} (h1 : xs ≠ [])
    (h2 : xs.any (crosses a) = true ∨ xs.getLast?.getD 0 ≠ 0) :
    ∃ i, (forceTrial a xs).findIdx? (crosses a) = some i ∧ i < xs.length := by
  have hany := forceTrial_any h1 h2
  have hs : ((forceTrial a xs).findIdx? (crosses a)).isSome = true := by
    rw [List.findIdx?_isSome, hany]
  obtain ⟨i, hi⟩ := Option.isSome_iff_exists.mp hs
  refine ⟨i, hi, ?_⟩
  have := List.findIdx?_eq_some_iff_findIdx_eq.mp hi
  rw [forceTrial_length] at this
  exact this.1

theorem extractTrial_of_findIdx {a : ℚ} (tspan : List ℚ) {xs : List ℚ} {i : ℕ}
    (h : (forceTrial a xs).findIdx? (crosses a) = some i) :
    extractTrial a tspan xs =
      some (tspan.getD i 0, npSign ((forceTrial a xs).getD i 0)) := by
  unfold extractTrial
  rw [h]

theorem extractTrial_isSome {a : ℚ} (tspan : List ℚ) {xs : List ℚ} (h1 : xs ≠ [])
    (h2 : xs.any (crosses a) = true ∨ xs.getLast?.getD 0 ≠ 0) :
    (extractTrial a tspan xs).isSome = true := by
  obtain ⟨i, hi, _⟩ := extractTrial_exists tspan h1 h2
  rw [extractTrial_of_findIdx tspan hi]
  rfl

theorem extractTrial_some_bounds {T : ℚ} (hT : 0 ≤ T) {n : ℕ} {a : ℚ}
    {xs : List ℚ} {rt d : ℚ} (hx : xs.length ≤ n)
    (h : extractTrial a (linspace 0 T n) xs = some (rt, d)) :
    (0 ≤ rt ∧ rt ≤ T) ∧ (d = -1 ∨ d = 0 ∨ d = 1) := by
  unfold extractTrial at h
  rcases hidx : (forceTrial a xs).findIdx? (crosses a) with _ | i
  · rw [hidx] at h
    exact absurd h (by simp)
  · rw [hidx] at h
    have hlt : i < n := by
      have := List.findIdx?_eq_some_iff_findIdx_eq.mp hidx
      rw [forceTrial_length] at this
      omega
    have hrt : rt = (linspace 0 T n).getD i 0 := by
      have := (Option.some_inj.mp h)
      exact (congrArg Prod.fst this).symm
    have hd : d = npSign ((forceTrial a xs).getD i 0) := by
      have := (Option.some_inj.mp h)
      exact (congrArg Prod.snd this).symm
    constructor
    · rw [hrt]
      exact linspace_getD_bounds hT hlt
    · rw [hd]
      exact npSign_cases _

/-! ### Facts about the histogram -/

theorem countP_split (vs : List ℚ) (p q r : ℚ → Bool)
    (hor : ∀ v, r v = (p v || q v)) (hdisj : ∀ v, ¬(p v = true ∧ q v = true)) :
    vs.countP r = vs.countP p + vs.countP q := by
  induction vs with
  | nil => simp
  | cons v t ih =>
    rw [List.countP_cons, List.countP_cons, List.countP_cons, ih]
    have h1 := hor v
    have h2 := hdisj v
    cases hp : p v <;> cases hq : q v <;> simp [hp, hq] at h1 h2 ⊢ <;>
      simp [h1] <;> omega

theorem histCounts_length (vs : List ℚ) : ∀ edges : List ℚ,
    (histCounts vs edges).length = edges.length - 1
  | [] => rfl
  | [_] => rfl
  | [_, _] => rfl
  | _ :: e2 :: e3 :: rest => by
    rw [histCounts, List.length_cons, histCounts_length vs (e2 :: e3 :: rest)]
    simp

theorem histCounts_sum (vs : List ℚ) : ∀ (edges : List ℚ) (lo hi : ℚ),
    edges.Pairwise (fun x y => x ≤ y) → edges.head? = some lo →
    edges.getLast? = some hi →
    (histCounts vs edges).sum = vs.countP (fun v => decide (lo ≤ v ∧ v ≤ hi)) ∨
      edges.length ≤ 1
  | [] => fun _ _ _ _ _ => Or.inr (by simp)
  | [_] => fun _ _ _ _ _ => Or.inr (by simp)
  | [e1, e2] => by
    intro lo hi _ hh hl
    obtain rfl : lo = e1 := by
      simp only [List.head?_cons, Option.some_inj] at hh
      exact hh.symm
    obtain rfl : hi = e2 := by
      have h2 : [lo, e2].getLast? = some e2 := rfl
      rw [h2] at hl
      exact (Option.some_inj.mp hl).symm
    exact Or.inl (by rw [histCounts]; simp)
  | e1 :: e2 :: e3 :: rest => by
    intro lo hi hp hh hl
    obtain rfl : lo = e1 := by
      simp only [List.head?_cons, Option.some_inj] at hh
      exact hh.symm
    have hl2 : (e2 :: e3 :: rest).getLast? = some hi := by
      rw [List.getLast?_cons_cons] at hl
      exact hl
    have h12 : lo ≤ e2 := List.rel_of_pairwise_cons hp (by simp)
    have h2hi : e2 ≤ hi := by
      have hmem : hi ∈ e2 :: e3 :: rest :=
        List.mem_of_mem_getLast? (by rw [hl2]; rfl)
      rcases List.mem_cons.mp hmem with h | h
      · exact le_of_eq h.symm
      · exact List.rel_of_pairwise_cons hp.of_cons h
    have ih := histCounts_sum vs (e2 :: e3 :: rest) e2 hi hp.of_cons rfl hl2
    rcases ih with ih | ih
    · refine Or.inl ?_
      rw [histCounts, List.sum_cons, ih]
      refine (countP_split vs
        (fun v => decide (lo ≤ v ∧ v < e2))
        (fun v => decide (e2 ≤ v ∧ v ≤ hi))
        (fun v => decide (lo ≤ v ∧ v ≤ hi)) ?_ ?_).symm
      · intro v
        rcases le_or_lt e2 v with hv | hv
        · have hv1 : lo ≤ v := le_trans h12 hv
          have hnv : ¬v < e2 := not_lt.mpr hv
          by_cases hvh : v ≤ hi <;> simp [hv, hv1, hnv, hvh]
        · have hvh : v ≤ hi := le_trans (le_of_lt hv) h2hi
          have hnv : ¬e2 ≤ v := not_le.mpr hv
          by_cases hv1 : lo ≤ v <;> simp [hv, hv1, hnv, hvh]
      · intro v hc
        obtain ⟨hc1, hc2⟩ := hc
        simp only [decide_eq_true_eq] at hc1 hc2
        exact absurd hc1.2 (not_lt.mpr hc2.1)
    · simp at ih

theorem histCounts_sum_nil : ∀ edges : List ℚ, (histCounts [] edges).sum = 0
  | [] => rfl
  | [_] => rfl
  | [_, _] => by rw [histCounts]; simp
  | _ :: e2 :: e3 :: rest => by
    rw [histCounts, List.sum_cons, histCounts_sum_nil (e2 :: e3 :: rest)]
    simp

/-! ### Facts about the batch extraction `find_core` -/

theorem paramBlock_length {x_traces : List (List ℚ)} {P t : ℕ} {p : ℕ}
    (hlen : x_traces.length = P * t) (hp : p < P) :
    (paramBlock x_traces t p).length = t := by
  unfold paramBlock
  rw [List.length_take, List.length_drop, hlen]
  have hmul : p * t + t ≤ P * t := by
    have h1 : (p + 1) * t ≤ P * t := Nat.mul_le_mul_right t hp
    have h2 : (p + 1) * t = p * t + t := by ring
    omega
  omega

theorem paramBlock_subset {x_traces : List (List ℚ)} {t p : ℕ} :
    ∀ r ∈ paramBlock x_traces t p, r ∈ x_traces := fun _ hr =>
  List.mem_of_mem_drop (List.mem_of_mem_take hr)

theorem find_core_num_params (x_traces : List (List ℚ)) (P t : ℕ)
    (tspan : List ℚ) (a : ℚ) :
    (find_core x_traces P t tspan a).1.length = P ∧
      (find_core x_traces P t tspan a).2.length = P := by
  unfold find_core
  constructor <;> rw [List.length_map, List.length_map, List.length_range]

theorem find_core_rows_length {x_traces : List (List ℚ)} {P t : ℕ}
    {tspan : List ℚ} {a : ℚ} (hlen : x_traces.length = P * t)
    (hrow : ∀ r ∈ x_traces,
      r ≠ [] ∧ (r.any (crosses a) = true ∨ r.getLast?.getD 0 ≠ 0)) :
    ∀ row ∈ (find_core x_traces P t tspan a).1, row.length = t := by
  intro row hrowmem
  unfold find_core at hrowmem
  simp only [List.mem_map, List.mem_range] at hrowmem
  obtain ⟨o, ⟨p, hp, rfl⟩, rfl⟩ := hrowmem
  rw [List.length_map]
  rw [List.filterMap_length_eq_length.mpr, paramBlock_length hlen hp]
  intro r hr
  obtain ⟨h1, h2⟩ := hrow r (paramBlock_subset r hr)
  exact extractTrial_isSome tspan h1 h2

theorem find_core_rts_mem {x_traces : List (List ℚ)} {P t : ℕ}
    {tspan : List ℚ} {a : ℚ} :
    ∀ row ∈ (find_core x_traces P t tspan a).1, ∀ rt ∈ row,
      ∃ xs ∈ x_traces, ∃ d, extractTrial a tspan xs = some (rt, d) := by
  intro row hrowmem rt hrt
  unfold find_core at hrowmem
  simp only [List.mem_map, List.mem_range] at hrowmem
  obtain ⟨o, ⟨p, _, rfl⟩, rfl⟩ := hrowmem
  simp only [List.mem_map] at hrt
  obtain ⟨⟨rt', d⟩, hmem, rfl⟩ := hrt
  obtain ⟨xs, hxs, hsome⟩ := List.mem_filterMap.mp hmem
  exact ⟨xs, paramBlock_subset xs hxs, d, hsome⟩

theorem find_core_outcomes {x_traces : List (List ℚ)} {P t : ℕ}
    {tspan : List ℚ} {a : ℚ} :
    ∀ pr ∈ (List.range P).map (fun p =>
        (paramBlock x_traces t p).filterMap (extractTrial a tspan)),
      ∀ x ∈ pr, ∃ xs ∈ x_traces, extractTrial a tspan xs = some x := by
  intro pr hpr x hx
  simp only [List.mem_map, List.mem_range] at hpr
  obtain ⟨p, _, rfl⟩ := hpr
  obtain ⟨xs, hxs, hsome⟩ := List.mem_filterMap.mp hx
  exact ⟨xs, paramBlock_subset xs hxs, hsome⟩

/-! ### Facts about the simulator -/

theorem trialPath_length (mu sigma h y0 : ℚ) (w : ℕ → ℚ) (n : ℕ) :
    (trialPath mu sigma h y0 w n).length = n := by
  unfold trialPath
  rw [List.length_map, List.length_range]

theorem simBlock_length (mu sigma T y0 dt : ℚ) (w : ℕ → ℕ → ℚ) (t : ℕ) :
    (simBlock mu sigma T y0 dt w t).length = t := by
  unfold simBlock
  rw [List.length_map, List.length_range]

theorem simBlock_mem {mu sigma T y0 dt : ℚ} {w : ℕ → ℕ → ℚ} {t : ℕ} :
    ∀ r ∈ simBlock mu sigma T y0 dt w t, ∃ i, i < t ∧
      r = trialPath mu sigma (stepSize T dt) y0 (w i) (numSteps T dt) := by
  intro r hr
  unfold simBlock at hr
  simp only [List.mem_map, List.mem_range] at hr
  obtain ⟨i, hi, rfl⟩ := hr
  exact ⟨i, hi, rfl⟩

theorem find_core_one {x_traces : List (List ℚ)} {t : ℕ} {tspan : List ℚ}
    {a : ℚ} (hlen : x_traces.length = t) :
    find_core x_traces 1 t tspan a =
      ([(x_traces.filterMap (extractTrial a tspan)).map Prod.fst],
        [(x_traces.filterMap (extractTrial a tspan)).map Prod.snd]) := by
  unfold find_core paramBlock
  have hr1 : List.range 1 = [0] := rfl
  rw [hr1, List.map_cons, List.map_nil, Nat.zero_mul, List.drop_zero, ← hlen,
    List.take_length, List.map_cons, List.map_nil, List.map_cons, List.map_nil]

theorem simParamResult_none {mu sigma T y0 a : ℚ} {t nbins : ℕ} {dt : ℚ}
    {w : ℕ → ℕ → ℚ} (hn : numSteps T dt < 2) :
    simParamResult mu sigma T y0 a t nbins dt w = none := by
  unfold simParamResult
  rw [if_pos hn]

theorem simParamResult_some (mu sigma T y0 a : ℚ) (t nbins : ℕ) (dt : ℚ)
    (w : ℕ → ℕ → ℚ) (hn : 2 ≤ numSteps T dt) :
    simParamResult mu sigma T y0 a t nbins dt w =
      some ((simBlock mu sigma T y0 dt w t).map (forceTrial a),
        calculate_histogram_stats
          (find_core (simBlock mu sigma T y0 dt w t) 1 t
            (linspace 0 T (numSteps T dt)) a).1
          (find_core (simBlock mu sigma T y0 dt w t) 1 t
            (linspace 0 T (numSteps T dt)) a).2
          T nbins) := by
  have hlen : (simBlock mu sigma T y0 dt w t).length = 1 * t := by
    rw [simBlock_length, one_mul]
  unfold simParamResult find_rts_and_decisions
  rw [if_neg (by omega), if_pos hlen]
  rfl

theorem simParamResult_traces {mu sigma T y0 a : ℚ} {t nbins : ℕ} {dt : ℚ}
    {w : ℕ → ℕ → ℚ} {traces : List (List ℚ)} {stats : List (List ℕ)}
    (h : simParamResult mu sigma T y0 a t nbins dt w = some (traces, stats)) :
    traces.length = t ∧ ∀ r ∈ traces, r.length = numSteps T dt := by
  by_cases hn : numSteps T dt < 2
  · rw [simParamResult_none hn] at h
    exact absurd h (by simp)
  rw [simParamResult_some mu sigma T y0 a t nbins dt w (by omega)] at h
  have hp := Option.some_inj.mp h
  rw [Prod.ext_iff] at hp
  obtain ⟨ht, _⟩ := hp
  simp only at ht
  constructor
  · rw [← ht, List.length_map, simBlock_length]
  · intro r hr
    rw [← ht] at hr
    simp only [List.mem_map] at hr
    obtain ⟨r', hr', rfl⟩ := hr
    obtain ⟨i, _, rfl⟩ := simBlock_mem r' hr'
    rw [forceTrial_length, trialPath_length]

theorem signed_bounds {T rt d : ℚ} (hrt : 0 ≤ rt ∧ rt ≤ T)
    (hd : d = -1 ∨ d = 0 ∨ d = 1) : -T ≤ rt * d ∧ rt * d ≤ T := by
  rcases hd with rfl | rfl | rfl <;> constructor <;> nlinarith [hrt.1, hrt.2]

theorem simParamResult_stats {mu sigma T y0 a : ℚ} {t nbins : ℕ} {dt : ℚ}
    {w : ℕ → ℕ → ℚ} {traces : List (List ℚ)} {stats : List (List ℕ)}
    (h : simParamResult mu sigma T y0 a t nbins dt w = some (traces, stats))
    (hT : 0 ≤ T) (hnb : 2 ≤ nbins)
    (hnd : ∀ r ∈ simBlock mu sigma T y0 dt w t,
      r ≠ [] ∧ (r.any (crosses a) = true ∨ r.getLast?.getD 0 ≠ 0)) :
    stats.length = 1 ∧ ∀ s ∈ stats, s.length = nbins - 1 ∧ s.sum = t := by
  by_cases hn : numSteps T dt < 2
  · rw [simParamResult_none hn] at h
    exact absurd h (by simp)
  rw [simParamResult_some mu sigma T y0 a t nbins dt w (by omega),
    find_core_one (simBlock_length mu sigma T y0 dt w t)] at h
  have hp := Option.some_inj.mp h
  rw [Prod.ext_iff] at hp
  obtain ⟨_, hs⟩ := hp
  simp only at hs
  unfold calculate_histogram_stats at hs
  simp only [List.zipWith_cons_cons, List.zipWith_nil_left, List.map_cons,
    List.map_nil] at hs
  rw [List.zipWith_map_left, List.zipWith_map_right, List.zipWith_same] at hs
  have hstats : stats =
      [histCounts
        (((simBlock mu sigma T y0 dt w t).filterMap
          (extractTrial a (linspace 0 T (numSteps T dt)))).map
            (fun x => x.1 * x.2))
        (linspace (-T) T nbins)] := hs.symm
  have houtlen : ((simBlock mu sigma T y0 dt w t).filterMap
      (extractTrial a (linspace 0 T (numSteps T dt)))).length = t := by
    rw [List.filterMap_length_eq_length.mpr, simBlock_length]
    intro r hr
    obtain ⟨h1, h2⟩ := hnd r hr
    exact extractTrial_isSome _ h1 h2
  have hinrange : ∀ v ∈ ((simBlock mu sigma T y0 dt w t).filterMap
      (extractTrial a (linspace 0 T (numSteps T dt)))).map
        (fun x => x.1 * x.2), -T ≤ v ∧ v ≤ T := by
    intro v hv
    simp only [List.mem_map] at hv
    obtain ⟨⟨rt, d⟩, hmem, rfl⟩ := hv
    obtain ⟨xs, hxs, hsome⟩ := List.mem_filterMap.mp hmem
    obtain ⟨i, _, rfl⟩ := simBlock_mem xs hxs
    have hb := extractTrial_some_bounds hT
      (le_of_eq (trialPath_length _ _ _ _ _ _)) hsome
    exact signed_bounds hb.1 hb.2
  constructor
  · rw [hstats]
    rfl
  · intro s hsmem
    rw [hstats] at hsmem
    rcases List.mem_cons.mp hsmem with rfl | hfalse
    · constructor
      · rw [histCounts_length, linspace_length]
      · have hTT : -T ≤ T := by linarith
        have hsum := histCounts_sum
          (((simBlock mu sigma T y0 dt w t).filterMap
            (extractTrial a (linspace 0 T (numSteps T dt)))).map
              (fun x => x.1 * x.2))
          (linspace (-T) T nbins) (-T) T
          (linspace_pairwise hTT nbins)
          (linspace_head? (-T) T (by omega))
          (linspace_getLast? (-T) T hnb)
        rcases hsum with hsum | hsum
        · rw [hsum]
          have hcnt : (((simBlock mu sigma T y0 dt w t).filterMap
              (extractTrial a (linspace 0 T (numSteps T dt)))).map
                (fun x => x.1 * x.2)).countP
              (fun v => decide (-T ≤ v ∧ v ≤ T)) =
              (((simBlock mu sigma T y0 dt w t).filterMap
                (extractTrial a (linspace 0 T (numSteps T dt)))).map
                  (fun x => x.1 * x.2)).length := by
            rw [List.countP_eq_length]
            intro v hv
            exact decide_eq_true (hinrange v hv)
          rw [hcnt, List.length_map, houtlen]
        · rw [linspace_length] at hsum
          omega
    · exact absurd hfalse (by simp)

theorem sum_map_length_one {α : Type} : ∀ L : List (List α),
    (∀ x ∈ L, x.length = 1) → (L.map List.length).sum = L.length
  | [], _ => rfl
  | x :: rest, h => by
    rw [List.map_cons, List.sum_cons, List.length_cons, h x (by simp),
      sum_map_length_one rest (fun y hy => h y (by simp [hy]))]
    omega

theorem simLoop_none (noise : ℕ → ℕ → ℕ → ℚ) (t : ℕ) (sigma T y0 a : ℚ)
    (nbins : ℕ) (dt : ℚ) (hn : numSteps T dt < 2) (row : List ℚ)
    (rest : List (List ℚ)) (p0 : ℕ) :
    simLoop noise t sigma T y0 a nbins dt p0 (row :: rest) = none := by
  unfold simLoop
  split
  · rw [simParamResult_none hn]
  · rfl

theorem simLoop_some (noise : ℕ → ℕ → ℕ → ℚ) (t : ℕ) (sigma T y0 a : ℚ)
    (nbins : ℕ) (dt : ℚ) (hn : 2 ≤ numSteps T dt) :
    ∀ (rows : List (List ℚ)) (p0 : ℕ), (∀ r ∈ rows, r.length = 1) →
    ∃ rs, simLoop noise t sigma T y0 a nbins dt p0 rows = some rs ∧
      rs.length = rows.length ∧
      ∀ x ∈ rs, ∃ j, j < rows.length ∧
        simParamResult ((rows.getD j []).getD 0 0) sigma T y0 a t nbins dt
          (noise (p0 + j)) = some x
  | [], p0, _ => ⟨[], rfl, rfl, by simp⟩
  | row :: rest, p0, h => by
    have hrow : row.length = 1 := h row (by simp)
    obtain ⟨rs', hrs', hlen', hmem'⟩ :=
      simLoop_some noise t sigma T y0 a nbins dt hn rest (p0 + 1)
        (fun r hr => h r (by simp [hr]))
    obtain ⟨R, hR⟩ : ∃ R,
        simParamResult (row.getD 0 0) sigma T y0 a t nbins dt (noise p0) = some R :=
      ⟨_, simParamResult_some (row.getD 0 0) sigma T y0 a t nbins dt (noise p0) hn⟩
    refine ⟨R :: rs', ?_, ?_, ?_⟩
    · unfold simLoop
      rw [if_pos hrow, hR, hrs']
      rfl
    · rw [List.length_cons, List.length_cons, hlen']
    · intro x hx
      rcases List.mem_cons.mp hx with rfl | hx'
      · refine ⟨0, by simp, ?_⟩
        rw [Nat.add_zero]
        simpa using hR
      · obtain ⟨j, hj, hx2⟩ := hmem' x hx'
        refine ⟨j + 1, by simpa using hj, ?_⟩
        rw [show p0 + (j + 1) = p0 + 1 + j from by omega]
        simpa using hx2

theorem simulator_none {parameters : SimParams} {noise : ℕ → ℕ → ℕ → ℚ}
    {t : ℕ} {sigma T y0 a : ℚ} {nbins : ℕ} {dt : ℚ}
    (hn : numSteps T dt < 2) :
    simulator parameters noise t sigma T y0 a nbins dt = none := by
  unfold simulator
  split
  · rfl
  · rename_i he
    cases hc : coerceParams parameters with
    | nil =>
      rw [hc] at he
      simp at he
    | cons row rest =>
      rw [simLoop_none noise t sigma T y0 a nbins dt hn row rest 0]
      rfl

theorem simulator_some {parameters : SimParams} {noise : ℕ → ℕ → ℕ → ℚ}
    {t : ℕ} {sigma T y0 a : ℚ} {nbins : ℕ} {dt : ℚ}
    (hn : 2 ≤ numSteps T dt)
    (hP : coerceParams parameters ≠ [])
    (h1 : ∀ r ∈ coerceParams parameters, r.length = 1) :
    ∃ rs : List (List (List ℚ) × List (List ℕ)),
      simulator parameters noise t sigma T y0 a nbins dt =
        some ⟨(rs.map Prod.fst).flatten, (rs.map Prod.snd).flatten⟩ ∧
      rs.length = (coerceParams parameters).length ∧
      ∀ x ∈ rs, ∃ j, j < (coerceParams parameters).length ∧
        simParamResult (((coerceParams parameters).getD j []).getD 0 0)
          sigma T y0 a t nbins dt (noise j) = some x := by
  obtain ⟨rs, hrs, hlen, hmem⟩ :=
    simLoop_some noise t sigma T y0 a nbins dt hn (coerceParams parameters) 0 h1
  refine ⟨rs, ?_, hlen, ?_⟩
  · unfold simulator
    rw [if_neg (by simpa [List.isEmpty_iff] using hP), hrs]
    rfl
  · intro x hx
    obtain ⟨j, hj, hx2⟩ := hmem x hx
    rw [Nat.zero_add] at hx2
    exact ⟨j, hj, hx2⟩

theorem sum_map_eq_mul {α : Type} (t : ℕ) : ∀ L : List (List α),
    (∀ x ∈ L, x.length = t) → (L.map List.length).sum = L.length * t
  | [], _ => by simp
  | x :: rest, h => by
    rw [List.map_cons, List.sum_cons, List.length_cons, h x (by simp),
      sum_map_eq_mul t rest (fun y hy => h y (by simp [hy]))]
    ring

theorem simLoop_traces (noise : ℕ → ℕ → ℕ → ℚ) (t : ℕ) (sigma T y0 a : ℚ)
    (nbins : ℕ) (dt : ℚ) :
    ∀ (rows : List (List ℚ)) (p0 : ℕ)
      (rs : List (List (List ℚ) × List (List ℕ))),
      simLoop noise t sigma T y0 a nbins dt p0 rows = some rs →
      ∀ x ∈ rs, ∃ mu w, simParamResult mu sigma T y0 a t nbins dt w = some x
  | [], _, rs, h => by
    obtain rfl : ([] : List (List (List ℚ) × List (List ℕ))) = rs :=
      Option.some_inj.mp h
    simp
  | row :: rest, p0, rs, h => by
    unfold simLoop at h
    by_cases hrow : row.length = 1
    · rw [if_pos hrow] at h
      rcases hsp : simParamResult (row.getD 0 0) sigma T y0 a t nbins dt
          (noise p0) with _ | R
      · rw [hsp] at h
        exact absurd h (by simp)
      · rw [hsp] at h
        rcases hsl : simLoop noise t sigma T y0 a nbins dt (p0 + 1) rest
            with _ | rs'
        · rw [hsl] at h
          exact absurd h (by simp)
        · rw [hsl] at h
          obtain rfl : R :: rs' = rs := Option.some_inj.mp (by simpa using h)
          intro x hx
          rcases List.mem_cons.mp hx with rfl | hx'
          · exact ⟨row.getD 0 0, noise p0, hsp⟩
          · exact simLoop_traces noise t sigma T y0 a nbins dt rest (p0 + 1)
              rs' hsl x hx'
    · rw [if_neg hrow] at h
      exact absurd h (by simp)

theorem pathX_zero_noise (mu sigma h y0 : ℚ) : ∀ k : ℕ,
    pathX mu sigma h y0 (fun _ => 0) k = y0 + k * (mu * h)
  | 0 => by simp [pathX]
  | k + 1 => by
    rw [pathX, pathX_zero_noise mu sigma h y0 k]
    push_cast
    ring

theorem trialPath_zero_noise (mu sigma h y0 : ℚ) (n : ℕ) :
    trialPath mu sigma h y0 (fun _ => 0) n =
      (List.range n).map (fun k : ℕ => y0 + k * (mu * h)) := by
  unfold trialPath
  exact List.map_congr_left (fun k _ => pathX_zero_noise mu sigma h y0 k)

theorem crosses_of_nonpos {a : ℚ} (ha : a ≤ 0) (x : ℚ) : crosses a x = true := by
  unfold crosses
  exact decide_eq_true (le_trans ha (abs_nonneg x))

theorem extractTrial_of_nonpos {a : ℚ} (ha : a ≤ 0) (tspan : List ℚ)
    {xs : List ℚ} (hne : xs ≠ []) :
    extractTrial a tspan xs = some (tspan.getD 0 0, npSign (xs.getD 0 0)) := by
  obtain ⟨x, t, rfl⟩ : ∃ x t, xs = x :: t := by
    cases xs with
    | nil => exact absurd rfl hne
    | cons x t => exact ⟨x, t, rfl⟩
  have hany : (x :: t).any (crosses a) = true := by
    simp [crosses_of_nonpos ha]
  have hforce : forceTrial a (x :: t) = x :: t := forceTrial_of_any hany
  have hidx : (forceTrial a (x :: t)).findIdx? (crosses a) = some 0 := by
    rw [hforce, List.findIdx?_cons, crosses_of_nonpos ha]
    rfl
  rw [extractTrial_of_findIdx tspan hidx, hforce]

/-! ### Claim theorems -/

/-- C9: `find_rts_and_decisions` requires that the number of trajectory rows
equals `num_parameters * num_trials`; for every input violating this it
raises an `AssertionError` (modelled as `none`) before producing any
outcome, and under the precondition the assertion never fires and execution
proceeds to the extraction result. -/
theorem C9_shape_precondition (x_traces : List (List ℚ))
    (num_parameters num_trials : ℕ) (tspan : List ℚ) (a : ℚ) :
    (find_rts_and_decisions x_traces num_parameters num_trials tspan a = none ↔
      x_traces.length ≠ num_parameters * num_trials) ∧
    (find_rts_and_decisions x_traces num_parameters num_trials tspan a =
        some (find_core x_traces num_parameters num_trials tspan a) ↔
      x_traces.length = num_parameters * num_trials) := by
  unfold find_rts_and_decisions
  constructor
  · split <;> simp_all
  · split <;> simp_all

/-- C10: the `simulator` coerces a bare float into the batch `[[x]]` (one
parameter of dimension 1) and a 1-dimensional tensor of any length into the
single-row batch `[xs]`, never into multiple separate parameters. -/
theorem C10_param_coercion (x : ℚ) (xs : List ℚ) :
    coerceParams (SimParams.scalar x) = [[x]] ∧
    coerceParams (SimParams.oneDim xs) = [xs] ∧
    (coerceParams (SimParams.scalar x)).length = 1 ∧
    (coerceParams (SimParams.oneDim xs)).length = 1 :=
  ⟨rfl, rfl, rfl, rfl⟩

unseal Rat.mul Rat.add Rat.sub Rat.inv Rat.ofScientific in
/-- C8 evaluation at the failing input: a single undecided trial whose final
value is exactly `0` (trajectory `[0, 0]`, boundary `1`). The forced
boundary value is `1 * sign(0) = 0`, the re-scan finds no crossing, and
`find_rts_and_decisions` returns successfully with EMPTY outcome lists: the
trial is silently dropped. No `NumericalDegeneracy` is surfaced — the
return type carries no flag, sentinel or warning channel at all. -/
theorem C8_degeneracy_silently_dropped :
    find_rts_and_decisions [[0, 0]] 1 1 (linspace 0 5 2) 1 =
      some ([[]], [[]]) := by
  decide

unseal Rat.mul Rat.add Rat.sub Rat.inv Rat.ofScientific in
/-- C1 counterexample: the decisiveness claim fails as stated. For the batch
`[[0, 0, 0]]` (one parameter, one trial, boundary `1`) the extractor returns
an empty reaction-time row: zero outcomes for one input trial. -/
theorem C1_counterexample :
    find_rts_and_decisions [[0, 0, 0]] 1 1 (linspace 0 5 3) 1 =
      some ([[]], [[]]) ∧
    ([([] : List ℚ)] : List (List ℚ)).flatten.length ≠ 1 * 1 := by
  exact ⟨by decide, by decide⟩

/-- C1 (amended): for every batch whose trials are nonempty and each either
crosses the boundary or ends with a nonzero value, `find_rts_and_decisions`
(called with the matching shape and the time grid `linspace 0 T n` covering
every row) produces exactly one outcome per input trial — `num_parameters`
rows of `num_trials` reaction times, `num_parameters * num_trials` in total
— and every reaction time lies in `[0, T]`. -/
theorem C1_decisiveness {x_traces : List (List ℚ)} {P t n : ℕ} {T a : ℚ}
    (hT : 0 ≤ T)
    (hshape : x_traces.length = P * t)
    (hrowlen : ∀ r ∈ x_traces, r.length ≤ n)
    (hrow : ∀ r ∈ x_traces,
      r ≠ [] ∧ (r.any (crosses a) = true ∨ r.getLast?.getD 0 ≠ 0)) :
    ∃ rts decs,
      find_rts_and_decisions x_traces P t (linspace 0 T n) a =
        some (rts, decs) ∧
      rts.length = P ∧
      (∀ row ∈ rts, row.length = t) ∧
      rts.flatten.length = P * t ∧
      (∀ row ∈ rts, ∀ rt ∈ row, 0 ≤ rt ∧ rt ≤ T) := by
  refine ⟨(find_core x_traces P t (linspace 0 T n) a).1,
    (find_core x_traces P t (linspace 0 T n) a).2, ?_, ?_, ?_, ?_, ?_⟩
  · unfold find_rts_and_decisions
    rw [if_pos hshape]
  · exact (find_core_num_params x_traces P t (linspace 0 T n) a).1
  · exact find_core_rows_length hshape hrow
  · rw [List.length_flatten,
      sum_map_eq_mul t _ (find_core_rows_length hshape hrow),
      (find_core_num_params x_traces P t (linspace 0 T n) a).1]
  · intro row hrowmem rt hrt
    obtain ⟨xs, hxs, d, hsome⟩ := find_core_rts_mem row hrowmem rt hrt
    exact (extractTrial_some_bounds hT (hrowlen xs hxs) hsome).1

unseal Rat.mul Rat.add Rat.sub Rat.inv Rat.ofScientific in
/-- C1 witness: a concrete decided batch (one trial crossing the boundary)
for which the amended decisiveness theorem applies. -/
theorem C1_decisiveness_witness :
    ∃ rts decs,
      find_rts_and_decisions [[0, 2]] 1 1 (linspace 0 5 2) 1 =
        some (rts, decs) ∧
      rts.length = 1 ∧
      (∀ row ∈ rts, row.length = 1) ∧
      rts.flatten.length = 1 * 1 ∧
      (∀ row ∈ rts, ∀ rt ∈ row, 0 ≤ rt ∧ rt ≤ 5) :=
  C1_decisiveness (by norm_num) (by decide) (by decide) (by decide)

unseal Rat.mul Rat.add Rat.sub Rat.inv Rat.ofScientific in
/-- C3 counterexample: the claim that `simulate` fails with
`InvalidConfiguration` for boundary `a ≤ 0` is false — the code performs no
validation. The call with `a = -1` (an otherwise ordinary configuration)
returns successfully. -/
theorem C3_counterexample :
    (simulator (SimParams.twoDim [[3/10]]) (fun _ _ _ => 0) 50 (1/5) 5 0 (-1)
      20 (1/100)).isSome = true := by
  obtain ⟨rs, hrs, -, -⟩ :=
    @simulator_some (SimParams.twoDim [[3/10]]) (fun _ _ _ => 0) 50 (1/5) 5 0
      (-1) 20 (1/100) (by decide) (by decide) (by decide)
  rw [hrs]
  rfl

/-- C3 (amended): `simulator` performs no configuration validation of its
own, and no `InvalidConfiguration` failure exists anywhere in the code.
Concretely: (1) a call with boundary `a ≤ 0`, a time grid of at least 2
points (where the SDE integrator itself can run) and a nonempty batch of
1-entry parameter rows returns successfully — the claimed rejection of
`a ≤ 0` never happens; (2) with `a ≤ 0` every nonempty trial trivially
crosses at the first time index, so its outcome is `(tspan[0], sign(X[0]))`;
(3) a call whose `dt` and `T` yield fewer than 2 time steps does fail, but
with the `sdeint` library's own grid-validation error raised inside the
per-parameter loop, not through any eager configuration check of this
code. -/
theorem C3_no_validation :
    (∀ (parameters : SimParams) (noise : ℕ → ℕ → ℕ → ℚ) (t : ℕ)
      (sigma T y0 : ℚ) (nbins : ℕ) (dt : ℚ) (a : ℚ),
      a ≤ 0 → 2 ≤ numSteps T dt → coerceParams parameters ≠ [] →
      (∀ r ∈ coerceParams parameters, r.length = 1) →
      ∃ res, simulator parameters noise t sigma T y0 a nbins dt = some res) ∧
    (∀ (a : ℚ) (tspan xs : List ℚ), a ≤ 0 → xs ≠ [] →
      extractTrial a tspan xs = some (tspan.getD 0 0, npSign (xs.getD 0 0))) ∧
    (∀ (parameters : SimParams) (noise : ℕ → ℕ → ℕ → ℚ) (t : ℕ)
      (sigma T y0 a : ℚ) (nbins : ℕ) (dt : ℚ),
      numSteps T dt < 2 →
      simulator parameters noise t sigma T y0 a nbins dt = none) := by
  refine ⟨?_, ?_, ?_⟩
  · intro parameters noise t sigma T y0 nbins dt a _ hn hP h1
    obtain ⟨rs, hrs, -, -⟩ := simulator_some hn hP h1
    exact ⟨_, hrs⟩
  · intro a tspan xs ha hne
    exact extractTrial_of_nonpos ha tspan hne
  · intro parameters noise t sigma T y0 a nbins dt hn
    exact simulator_none hn

unseal Rat.mul Rat.add Rat.sub Rat.inv Rat.ofScientific in
/-- C3 witness: the amended no-validation theorem applied at a concrete
configuration with `a = -1` and a 2-point time grid. -/
theorem C3_no_validation_witness :
    ∃ res, simulator (SimParams.twoDim [[3/10]]) (fun _ _ _ => 0) 1 (1/5) 1 0
      (-1) 2 (1/2) = some res :=
  C3_no_validation.1 (SimParams.twoDim [[3/10]]) (fun _ _ _ => 0) 1 (1/5) 1 0
    2 (1/2) (-1) (by norm_num) (by decide) (by decide) (by decide)

/-- C7: `rejection_abc` (modelled from the spec — the notebook leaves its
body as an exercise stub) fails with `InvalidConfiguration` exactly when the
budget is `< 1` or the quantile lies outside `(0, 1]`, and otherwise
succeeds with an accepted-sample list from its single simulate-and-score
pass. -/
theorem C7_abc_config (priorDraws : ℕ → ℚ) (simulate : ℚ → List ℚ)
    (observed : List ℚ) (num_simulations : ℕ)
    (distance_fun : List ℚ → List ℚ → ℚ) (q : ℚ) :
    (rejection_abc priorDraws simulate observed num_simulations distance_fun q =
        Except.error ABCError.invalidConfiguration ↔
      (num_simulations < 1 ∨ q ≤ 0 ∨ 1 < q)) ∧
    ((∃ samples, rejection_abc priorDraws simulate observed num_simulations
        distance_fun q = Except.ok samples) ↔
      ¬(num_simulations < 1 ∨ q ≤ 0 ∨ 1 < q)) := by
  unfold rejection_abc
  constructor
  · split <;> simp_all
  · split <;> simp_all

theorem abc_scored_length (priorDraws : ℕ → ℚ) (simulate : ℚ → List ℚ)
    (observed : List ℚ) (B : ℕ) (distance_fun : List ℚ → List ℚ → ℚ) :
    (abc_scored priorDraws simulate observed B distance_fun).length = B := by
  unfold abc_scored
  rw [List.length_map, List.length_range]

theorem abc_sorted_length (priorDraws : ℕ → ℚ) (simulate : ℚ → List ℚ)
    (observed : List ℚ) (B : ℕ) (distance_fun : List ℚ → List ℚ → ℚ) :
    (abc_sorted priorDraws simulate observed B distance_fun).length = B := by
  unfold abc_sorted
  rw [List.length_mergeSort, abc_scored_length]

theorem abc_sorted_pairwise (priorDraws : ℕ → ℚ) (simulate : ℚ → List ℚ)
    (observed : List ℚ) (B : ℕ) (distance_fun : List ℚ → List ℚ → ℚ) :
    (abc_sorted priorDraws simulate observed B distance_fun).Pairwise
      (fun x y : ℚ × ℚ => x.1 ≤ y.1) := by
  unfold abc_sorted
  have hs := @List.sorted_mergeSort (ℚ × ℚ)
    (fun x y : ℚ × ℚ => decide (x.1 ≤ y.1))
    (fun a b c hab hbc => by
      simp only [decide_eq_true_eq] at hab hbc ⊢
      exact le_trans hab hbc)
    (fun a b => by
      simp only [Bool.or_eq_true, decide_eq_true_eq]
      exact le_total a.1 b.1)
    (abc_scored priorDraws simulate observed B distance_fun)
  exact hs.imp (fun h => of_decide_eq_true h)

theorem num_accept_le (B : ℕ) {q : ℚ} (hq1 : q ≤ 1) : num_accept B q ≤ B := by
  unfold num_accept
  rw [Int.toNat_le]
  by_contra hcon
  push_neg at hcon
  have h2 : ((B : ℤ) + 1 : ℤ) ≤ (q * (B : ℚ)).floor := by omega
  rw [Rat.le_floor] at h2
  push_cast at h2
  have hB0 : (0 : ℚ) ≤ (B : ℚ) := Nat.cast_nonneg B
  nlinarith [mul_le_mul_of_nonneg_right hq1 hB0]

theorem abc_sorted_stable (priorDraws : ℕ → ℚ) (simulate : ℚ → List ℚ)
    (observed : List ℚ) (B : ℕ) (distance_fun : List ℚ → List ℚ → ℚ)
    (dist : ℚ) :
    (abc_sorted priorDraws simulate observed B distance_fun).filter
      (fun x => decide (x.1 = dist)) =
    (abc_scored priorDraws simulate observed B distance_fun).filter
      (fun x => decide (x.1 = dist)) := by
  have hsub : List.Sublist
      ((abc_scored priorDraws simulate observed B distance_fun).filter
        (fun x => decide (x.1 = dist)))
      (abc_sorted priorDraws simulate observed B distance_fun) := by
    unfold abc_sorted
    apply List.sublist_mergeSort
      (fun a b c hab hbc => by
        simp only [decide_eq_true_eq] at hab hbc ⊢
        exact le_trans hab hbc)
      (fun a b => by
        simp only [Bool.or_eq_true, decide_eq_true_eq]
        exact le_total a.1 b.1)
    · apply List.pairwise_of_forall_mem_list
      intro x hx y hy
      have hx1 : x.1 = dist := of_decide_eq_true (List.mem_filter.mp hx).2
      have hy1 : y.1 = dist := of_decide_eq_true (List.mem_filter.mp hy).2
      exact decide_eq_true (le_of_eq (hx1.trans hy1.symm))
    · exact List.filter_sublist _
  have hself : ((abc_scored priorDraws simulate observed B distance_fun).filter
      (fun x => decide (x.1 = dist))).filter (fun x => decide (x.1 = dist)) =
      (abc_scored priorDraws simulate observed B distance_fun).filter
        (fun x => decide (x.1 = dist)) :=
    List.filter_eq_self.mpr (fun a ha => (List.mem_filter.mp ha).2)
  have hsub2 : List.Sublist
      ((abc_scored priorDraws simulate observed B distance_fun).filter
        (fun x => decide (x.1 = dist)))
      ((abc_sorted priorDraws simulate observed B distance_fun).filter
        (fun x => decide (x.1 = dist))) := by
    rw [← hself]
    exact hsub.filter _
  have hperm : List.Perm
      ((abc_sorted priorDraws simulate observed B distance_fun).filter
        (fun x => decide (x.1 = dist)))
      ((abc_scored priorDraws simulate observed B distance_fun).filter
        (fun x => decide (x.1 = dist))) :=
    (List.mergeSort_perm _ _).filter _
  exact (hsub2.eq_of_length hperm.length_eq.symm).symm

unseal Rat.mul Rat.add Rat.sub Rat.inv Rat.ofScientific in
/-- C4: `rejection_abc` (modelled from the spec — the notebook leaves its
body as an exercise stub): for every prior, simulator, observation, budget
`≥ 1`, distance function and quantile `q ∈ (0, 1]`, it accepts exactly
`floor(budget × q)` parameters, namely the map to parameters of the first
`floor(budget × q)` entries of the stably sorted scored list; every accepted
entry's distance is `≤` every rejected entry's distance; ties are broken
stably (entries of equal distance keep their original simulation order); in
particular `floor(10000 × 0.01) = 100`. -/
theorem C4_abc_acceptance (priorDraws : ℕ → ℚ) (simulate : ℚ → List ℚ)
    (observed : List ℚ) (num_simulations : ℕ)
    (distance_fun : List ℚ → List ℚ → ℚ) (q : ℚ)
    (hB : 1 ≤ num_simulations) (hq0 : 0 < q) (hq1 : q ≤ 1) :
    rejection_abc priorDraws simulate observed num_simulations distance_fun q =
      Except.ok
        (((abc_sorted priorDraws simulate observed num_simulations
            distance_fun).take (num_accept num_simulations q)).map Prod.snd) ∧
    ((((abc_sorted priorDraws simulate observed num_simulations
        distance_fun).take (num_accept num_simulations q)).map Prod.snd).length =
      num_accept num_simulations q) ∧
    (∀ x ∈ (abc_sorted priorDraws simulate observed num_simulations
        distance_fun).take (num_accept num_simulations q),
      ∀ y ∈ (abc_sorted priorDraws simulate observed num_simulations
        distance_fun).drop (num_accept num_simulations q), x.1 ≤ y.1) ∧
    (∀ dist : ℚ,
      (abc_sorted priorDraws simulate observed num_simulations
        distance_fun).filter (fun x => decide (x.1 = dist)) =
      (abc_scored priorDraws simulate observed num_simulations
        distance_fun).filter (fun x => decide (x.1 = dist))) ∧
    num_accept 10000 (1/100) = 100 := by
  refine ⟨?_, ?_, ?_, ?_, ?_⟩
  · unfold rejection_abc
    rw [if_neg]
    simp only [not_or, not_lt, not_le]
    exact ⟨hB, hq0, hq1⟩
  · rw [List.length_map, List.length_take, abc_sorted_length]
    have := num_accept_le num_simulations hq1
    omega
  · intro x hx y hy
    have hpw := abc_sorted_pairwise priorDraws simulate observed
      num_simulations distance_fun
    rw [← List.take_append_drop (num_accept num_simulations q)
      (abc_sorted priorDraws simulate observed num_simulations distance_fun)]
      at hpw
    exact (List.pairwise_append.mp hpw).2.2 x hx y hy
  · exact abc_sorted_stable priorDraws simulate observed num_simulations
      distance_fun
  · decide

unseal Rat.mul Rat.add Rat.sub Rat.inv Rat.ofScientific in
/-- C4 witness: the acceptance theorem applied at a concrete instance
(budget 4, quantile 1/2: exactly 2 accepted). -/
theorem C4_abc_acceptance_witness :
    rejection_abc (fun i => (i : ℚ)) (fun p => [p]) [0] 4
        (fun _ s => s.getD 0 0) (1/2) =
      Except.ok
        (((abc_sorted (fun i => (i : ℚ)) (fun p => [p]) [0] 4
            (fun _ s => s.getD 0 0)).take (num_accept 4 (1/2))).map Prod.snd) ∧
    ((((abc_sorted (fun i => (i : ℚ)) (fun p => [p]) [0] 4
        (fun _ s => s.getD 0 0)).take (num_accept 4 (1/2))).map Prod.snd).length =
      num_accept 4 (1/2)) ∧
    (∀ x ∈ (abc_sorted (fun i => (i : ℚ)) (fun p => [p]) [0] 4
        (fun _ s => s.getD 0 0)).take (num_accept 4 (1/2)),
      ∀ y ∈ (abc_sorted (fun i => (i : ℚ)) (fun p => [p]) [0] 4
        (fun _ s => s.getD 0 0)).drop (num_accept 4 (1/2)), x.1 ≤ y.1) ∧
    (∀ dist : ℚ,
      (abc_sorted (fun i => (i : ℚ)) (fun p => [p]) [0] 4
        (fun _ s => s.getD 0 0)).filter (fun x => decide (x.1 = dist)) =
      (abc_scored (fun i => (i : ℚ)) (fun p => [p]) [0] 4
        (fun _ s => s.getD 0 0)).filter (fun x => decide (x.1 = dist))) ∧
    num_accept 10000 (1/100) = 100 :=
  C4_abc_acceptance (fun i => (i : ℚ)) (fun p => [p]) [0] 4
    (fun _ s => s.getD 0 0) (1/2) (by norm_num) (by norm_num) (by norm_num)

unseal Rat.mul Rat.add Rat.sub Rat.inv Rat.ofScientific in
/-- C2 counterexample: summary-statistic conservation fails as stated. With
the valid configuration `a = 1 > 0`, two time steps, `nbins = 2`, one trial,
parameter `μ = 0`, start `y0 = 0` and a noise draw of all zeros, the single
trial never crosses, its final value is exactly `0`, the forced trial is
dropped, and the returned SummaryVector sums to `0`, not `num_trials = 1`. -/
theorem C2_counterexample :
    simulator (SimParams.twoDim [[0]]) (fun _ _ _ => 0) 1 (1/5) 1 0 1 2 (1/2) =
      some ⟨[[0, 0]], [[0]]⟩ ∧ ([0] : List ℕ).sum ≠ 1 :=
  ⟨by decide, by decide⟩

/-- C2 (amended): for every valid configuration (`T ≥ 0`, `nbins ≥ 2`, a
time grid of at least 2 points, nonempty batch of 1-entry parameter rows)
in which every simulated trial either crosses the boundary or ends with a
nonzero value, `simulate` returns one SummaryVector per parameter, each a
vector of `nbins - 1` natural-number counts summing exactly to
`num_trials`. -/
theorem C2_summary_conservation {parameters : SimParams}
    {noise : ℕ → ℕ → ℕ → ℚ} {t : ℕ} {sigma T y0 a : ℚ} {nbins : ℕ} {dt : ℚ}
    (hT : 0 ≤ T) (hnb : 2 ≤ nbins) (hn : 2 ≤ numSteps T dt)
    (hP : coerceParams parameters ≠ [])
    (h1 : ∀ r ∈ coerceParams parameters, r.length = 1)
    (hnd : ∀ j < (coerceParams parameters).length,
      ∀ r ∈ simBlock (((coerceParams parameters).getD j []).getD 0 0) sigma T
          y0 dt (noise j) t,
        r ≠ [] ∧ (r.any (crosses a) = true ∨ r.getLast?.getD 0 ≠ 0)) :
    ∃ res, simulator parameters noise t sigma T y0 a nbins dt = some res ∧
      res.stats.length = (coerceParams parameters).length ∧
      ∀ s ∈ res.stats, s.length = nbins - 1 ∧ s.sum = t := by
  obtain ⟨rs, hrs, hlen, hmem⟩ := simulator_some hn hP h1
  have hstat : ∀ x ∈ rs, x.2.length = 1 ∧
      ∀ s ∈ x.2, s.length = nbins - 1 ∧ s.sum = t := by
    intro x hx
    obtain ⟨j, hj, hx2⟩ := hmem x hx
    have hx2' : simParamResult (((coerceParams parameters).getD j []).getD 0 0)
        sigma T y0 a t nbins dt (noise j) = some (x.1, x.2) := by
      rw [Prod.mk.eta]
      exact hx2
    exact simParamResult_stats hx2' hT hnb (hnd j hj)
  refine ⟨_, hrs, ?_, ?_⟩
  · show ((rs.map Prod.snd).flatten).length = _
    rw [List.length_flatten, sum_map_eq_mul 1 (rs.map Prod.snd) ?side,
      List.length_map, hlen, mul_one]
    case side =>
      intro y hy
      obtain ⟨x, hx, rfl⟩ := List.mem_map.mp hy
      exact (hstat x hx).1
  · intro s hsmem
    have hsmem' : s ∈ (rs.map Prod.snd).flatten := hsmem
    obtain ⟨l, hl, hsl⟩ := List.mem_flatten.mp hsmem'
    obtain ⟨x, hx, rfl⟩ := List.mem_map.mp hl
    exact (hstat x hx).2 s hsl

unseal Rat.mul Rat.add Rat.sub Rat.inv Rat.ofScientific in
/-- C2 witness: the conservation theorem applied at a concrete one-trial
configuration whose trial crosses the boundary. -/
theorem C2_summary_conservation_witness :
    ∃ res, simulator (SimParams.twoDim [[1]]) (fun _ _ _ => 0) 1 0 1 0 1 2
        (1/2) = some res ∧
      res.stats.length = (coerceParams (SimParams.twoDim [[1]])).length ∧
      ∀ s ∈ res.stats, s.length = 2 - 1 ∧ s.sum = 1 :=
  C2_summary_conservation (by norm_num) (by norm_num) (by decide) (by decide)
    (by decide)
    (by
      intro j hj
      obtain rfl : j = 0 := Nat.lt_one_iff.mp hj
      decide)

/-- C5: the decision-extraction algorithm, per trial. If no time index of
the trial crosses the boundary, the value at the final time index of the
forced trial equals `a * sign(X(T))`; and whenever the forced trial has a
first crossing index `i` (the minimal index with `|X| ≥ a`), the extracted
outcome is exactly `(time_grid[i], sign(X[i]))` evaluated on the forced
trial. -/
theorem C5_extraction_algorithm (a : ℚ) (tspan : List ℚ) (xs : List ℚ)
    (hne : xs ≠ []) :
    (xs.any (crosses a) = false →
      (forceTrial a xs).getLast?.getD 0 = a * npSign (xs.getLast?.getD 0)) ∧
    (∀ i, (forceTrial a xs).findIdx? (crosses a) = some i →
      extractTrial a tspan xs =
        some (tspan.getD i 0, npSign ((forceTrial a xs).getD i 0)) ∧
      i < xs.length ∧
      crosses a ((forceTrial a xs).getD i 0) = true ∧
      ∀ j < i, crosses a ((forceTrial a xs).getD j 0) = false) := by
  constructor
  · intro hno
    exact forceTrial_getLast hne hno
  · intro i hi
    obtain ⟨hlt, hcr, hfirst⟩ := List.findIdx?_eq_some_iff_getElem.mp hi
    refine ⟨extractTrial_of_findIdx tspan hi, ?_, ?_, ?_⟩
    · rw [← forceTrial_length a xs]
      exact hlt
    · rw [List.getD_eq_getElem _ _ hlt]
      exact hcr
    · intro j hj
      have hjlt : j < (forceTrial a xs).length := lt_trans hj hlt
      rw [List.getD_eq_getElem _ _ hjlt]
      simpa using hfirst j hj

unseal Rat.mul Rat.add Rat.sub Rat.inv Rat.ofScientific in
/-- C5 witness: the extraction-algorithm theorem applied to the concrete
trial `[0, 2]` with boundary `1` and time grid `[0, 5]`. -/
theorem C5_extraction_algorithm_witness :
    ((([0, 2] : List ℚ).any (crosses 1) = false →
      (forceTrial 1 [0, 2]).getLast?.getD 0 =
        1 * npSign (([0, 2] : List ℚ).getLast?.getD 0)) ∧
    (∀ i, (forceTrial 1 [0, 2]).findIdx? (crosses 1) = some i →
      extractTrial 1 [0, 5] [0, 2] =
        some (([0, 5] : List ℚ).getD i 0,
          npSign ((forceTrial 1 [0, 2]).getD i 0)) ∧
      i < ([0, 2] : List ℚ).length ∧
      crosses 1 ((forceTrial 1 [0, 2]).getD i 0) = true ∧
      ∀ j < i, crosses 1 ((forceTrial 1 [0, 2]).getD j 0) = false)) :=
  C5_extraction_algorithm 1 [0, 5] [0, 2] (by decide)

set_option maxRecDepth 100000 in
unseal Rat.mul Rat.add Rat.sub Rat.inv Rat.ofScientific in
theorem c6_trial_crosses :
    (trialPath (3/10) (1/5) (stepSize 5 (1/100)) 0 (fun _ => 0)
      (numSteps 5 (1/100))).any (crosses 1) = true := by
  rw [List.any_eq_true]
  refine ⟨pathX (3/10) (1/5) (stepSize 5 (1/100)) 0 (fun _ => 0) 333, ?_, ?_⟩
  · unfold trialPath
    exact List.mem_map.mpr ⟨333, List.mem_range.mpr (by decide), rfl⟩
  · have h500 : numSteps 5 (1/100) = 500 := by decide
    have hstep : stepSize 5 (1/100) = 5/499 := by
      unfold stepSize
      rw [h500]
      norm_num
    rw [pathX_zero_noise, hstep]
    unfold crosses
    rw [decide_eq_true_eq]
    push_cast
    rw [abs_of_nonneg (by norm_num)]
    norm_num

set_option maxRecDepth 100000 in
unseal Rat.mul Rat.add Rat.sub Rat.inv Rat.ofScientific in
theorem c6_block_nondegenerate :
    ∀ r ∈ simBlock (3/10) (1/5) 5 0 (1/100) (fun _ _ => 0) 50,
      r ≠ [] ∧ (r.any (crosses 1) = true ∨ r.getLast?.getD 0 ≠ 0) := by
  intro r hr
  obtain ⟨i, hi, rfl⟩ := simBlock_mem r hr
  constructor
  · intro hemp
    have hl := trialPath_length (3/10) (1/5) (stepSize 5 (1/100)) 0
      ((fun _ _ => (0 : ℚ)) i) (numSteps 5 (1/100))
    rw [hemp] at hl
    have h500 : numSteps 5 (1/100) = 500 := by decide
    rw [h500] at hl
    simp at hl
  · left
    exact c6_trial_crosses

unseal Rat.mul Rat.add Rat.sub Rat.inv Rat.ofScientific in
/-- C6: every simulated trial trajectory has length `floor(T/dt)` (the time
grid being `linspace 0 T` of that many points); in particular
`floor(5/0.01) = 500`, and the end-to-end run with parameter `μ = 0.3` and
defaults `num_trials = 50`, `T = 5`, `dt = 0.01`, `nbins = 20` (taking the
all-zero noise draw as the Wiener increments) yields a trajectory array of
shape `(50, 500)` and a single SummaryVector of length `19` summing to
`50`. -/
theorem C6_trajectory_length :
    (∀ (parameters : SimParams) (noise : ℕ → ℕ → ℕ → ℚ) (t : ℕ)
      (sigma T y0 a : ℚ) (nbins : ℕ) (dt : ℚ) (res : SimResult),
      simulator parameters noise t sigma T y0 a nbins dt = some res →
      ∀ row ∈ res.x_traces, row.length = numSteps T dt) ∧
    numSteps 5 (1/100) = 500 ∧
    (∃ res : SimResult,
      simulator (SimParams.twoDim [[3/10]]) (fun _ _ _ => 0) 50 (1/5) 5 0 1 20
        (1/100) = some res ∧
      res.x_traces.length = 50 ∧ (∀ row ∈ res.x_traces, row.length = 500) ∧
      res.stats.length = 1 ∧ ∀ s ∈ res.stats, s.length = 19 ∧ s.sum = 50) := by
  refine ⟨?_, by decide, ?_⟩
  · intro parameters noise t sigma T y0 a nbins dt res hres row hrow
    unfold simulator at hres
    by_cases he : (coerceParams parameters).isEmpty
    · rw [if_pos he] at hres
      exact absurd hres (by simp)
    · rw [if_neg he] at hres
      obtain ⟨rs, hrs, hmap⟩ := Option.map_eq_some'.mp hres
      rw [← hmap] at hrow
      have hrow' : row ∈ (rs.map Prod.fst).flatten := hrow
      obtain ⟨l, hl, hrl⟩ := List.mem_flatten.mp hrow'
      obtain ⟨x, hx, rfl⟩ := List.mem_map.mp hl
      obtain ⟨mu, w, hsp⟩ :=
        simLoop_traces noise t sigma T y0 a nbins dt _ 0 rs hrs x hx
      have hsp' : simParamResult mu sigma T y0 a t nbins dt w =
          some (x.1, x.2) := by
        rw [Prod.mk.eta]
        exact hsp
      exact (simParamResult_traces hsp').2 row hrl
  · obtain ⟨rs, hrs, hlen, hmem⟩ :=
      @simulator_some (SimParams.twoDim [[3/10]]) (fun _ _ _ => 0) 50 (1/5) 5
        0 1 20 (1/100) (by decide) (by decide) (by decide)
    obtain ⟨x, rfl⟩ := List.length_eq_one.mp (by rw [hlen]; rfl)
    obtain ⟨j, hj, hsp⟩ := hmem x (by simp)
    obtain rfl : j = 0 := Nat.lt_one_iff.mp hj
    have hsp' : simParamResult
        (((coerceParams (SimParams.twoDim [[3/10]])).getD 0 []).getD 0 0)
        (1/5) 5 0 1 50 20 (1/100) ((fun _ _ _ => (0 : ℚ)) 0) =
        some (x.1, x.2) := by
      rw [Prod.mk.eta]
      exact hsp
    have htr := simParamResult_traces hsp'
    have hst := simParamResult_stats hsp' (by norm_num) (by norm_num)
      c6_block_nondegenerate
    refine ⟨⟨x.1, x.2⟩, ?_, ?_, ?_, ?_, ?_⟩
    · rw [hrs]
      simp
    · exact htr.1
    · intro row hrow
      rw [htr.2 row hrow]
      decide
    · exact hst.1
    · intro s hs
      exact ⟨(hst.2 s hs).1, (hst.2 s hs).2⟩

unseal Rat.mul Rat.add Rat.sub Rat.inv Rat.ofScientific in
/-- C6 witness: the general trajectory-length invariant applied to a
concrete two-step run. -/
theorem C6_trajectory_length_witness :
    ∀ row ∈ (SimResult.mk [[0, 1]] [[1]]).x_traces,
      row.length = numSteps 1 (1/2) :=
  C6_trajectory_length.1 (SimParams.twoDim [[1]]) (fun _ _ _ => 0) 1 0 1 0 1 2
    (1/2) (SimResult.mk [[0, 1]] [[1]]) (by decide)

end DDM
